import Mathlib

/-!
Shallow embedding of `src/ats_core.py` (a heuristic ATS résumé parser) and
proofs about it.  Text is modelled as `List Char`; Python `re` operations are
specialised to the concrete patterns appearing in the source, with comments
explaining the specialisation at each definition.
-/

namespace ATS

/-- Text, modelled as a list of characters (Python `str`). -/
abbrev Str := List Char

/-- Python whitespace, as used by `str.strip()` and the regex class `\s`
(ASCII whitespace plus the unicode space characters Python treats as space). -/
def isPyWs (c : Char) : Bool :=
  c = ' ' || c = '\t' || c = '\n' || c = '\u000B' || c = '\u000C' || c = '\r' ||
  c = '\u001C' || c = '\u001D' || c = '\u001E' || c = '\u001F' ||
  c = '\u0085' || c = '\u00A0' || c = '\u1680' ||
  ('\u2000' ≤ c && c ≤ '\u200A') ||
  c = '\u2028' || c = '\u2029' || c = '\u202F' || c = '\u205F' || c = '\u3000'

/-- Python `str.lower()` (ASCII case mapping, which covers every string the
source manipulates). -/
def pyLower (s : Str) : Str := s.map Char.toLower

/-- Embeds `str.strip()` with no argument: drop leading whitespace. -/
def lstripWs (s : Str) : Str := s.dropWhile isPyWs

/-- Embeds `str.strip()` with no argument: drop trailing whitespace. -/
def rstripWs (s : Str) : Str := (s.reverse.dropWhile isPyWs).reverse

/-- Python `str.strip()`. -/
def pyStrip (s : Str) : Str := rstripWs (lstripWs s)

/-- Python `s.strip(cs)`: drop the characters of `cs` from both ends. -/
def stripChars (cs : List Char) (s : Str) : Str :=
  ((s.dropWhile (· ∈ cs)).reverse.dropWhile (· ∈ cs)).reverse

/-- Python `s.lstrip(cs)`. -/
def lstripChars (cs : List Char) (s : Str) : Str := s.dropWhile (· ∈ cs)

/-- Embeds `p.isPrefixOf s` written out, to keep every string predicate in one place. -/
def isPrefB : Str → Str → Bool
  | [], _ => true
  | _ :: _, [] => false
  | p :: ps, c :: cs => p = c && isPrefB ps cs

/-- Python `pat in s` (substring containment). -/
def isSubB (pat : Str) : Str → Bool
  | [] => isPrefB pat []
  | s@(_ :: rest) => isPrefB pat s || isSubB pat rest

/-- Join a list of strings with single spaces: Python `' '.join(xs)`. -/
def joinSpace (xs : List Str) : Str := List.intercalate [' '] xs

/-- Python slice `lines[s:e]` for natural bounds. -/
def pySlice (xs : List Str) (s e : Nat) : List Str := (xs.take e).drop s

/-- Association list standing for a Python `dict`; assignment replaces in
place, lookup finds the (unique) binding. -/
def setKey {K V : Type} [DecidableEq K] : List (K × V) → K → V → List (K × V)
  | [], k, v => [(k, v)]
  | (k', v') :: rest, k, v =>
      if k' = k then (k, v) :: rest else (k', v') :: setKey rest k v

/-- Lookup in the association list (Python `d[k]` / `k in d`). -/
def lookupKey {K V : Type} [DecidableEq K] : List (K × V) → K → Option V
  | [], _ => none
  | (k', v') :: rest, k => if k' = k then some v' else lookupKey rest k

/-- The section map produced by `locate_sections`: header name to `[start, end)`. -/
abbrev Sections := List (Str × Nat × Nat)

/-- The list `SECTION_HEADERS` from ats_core.py, in source order (order matters:
the first matching header wins for a line). -/
def SECTION_HEADERS : List Str :=
  (["summary", "objective", "education", "experience", "work experience",
    "professional experience", "projects", "skills", "certifications",
    "publications", "awards", "achievements", "languages", "interests"]).map
    String.data

/-- The list `COMMON_SKILLS` from ats_core.py.  The source stores these in a Python
`set`, whose iteration order is unspecified; we fix the written order.  No
theorem below depends on the order (only the skills-section branch of
`parse_skills`, which does not consult this list, is reasoned about). -/
def COMMON_SKILLS : List Str :=
  (["sql", "python", "excel", "microsoft excel", "power bi", "tableau",
    "jira", "confluence", "pandas", "numpy", "matplotlib", "seaborn",
    "scikit-learn", "machine learning", "statistics", "html", "css",
    "javascript", "git", "github", "agile", "stakeholder management",
    "financial analysis", "market research", "data analysis",
    "business intelligence"]).map String.data

/-! ## The delimiter split of parse_skills / parse_languages

`re.split(r',|;|\|/|\n|•|•|-', block)`.  The alternatives of this regex
are the single characters `,` `;` `\n` `•` (twice — `•` is `•`) `-`
and the two-character sequence `|/` (the branch `\|/` is an escaped pipe
followed by a slash, not two separate alternatives).  A lone `|` or `/` is
not a delimiter.  The alternatives have pairwise distinct first characters,
so scanning left to right and testing each alternative at each position is
exactly `re.split`. -/

/-- The single-character delimiters of the split regex. -/
def singleDelim (c : Char) : Bool :=
  c = ',' || c = ';' || c = '\n' || c = '•' || c = '-'

/-- Prepend a character to the first piece of a split result. -/
def consHead (c : Char) : List Str → List Str
  | [] => [[c]]
  | h :: t => (c :: h) :: t

/-- Embeds `re.split(r',|;|\|/|\n|•|•|-', block)`. -/
def splitDelims : Str → List Str
  | [] => [[]]
  | '|' :: '/' :: rest => [] :: splitDelims rest
  | c :: rest =>
      if singleDelim c then [] :: splitDelims rest
      else consHead c (splitDelims rest)

/-- The token loop of `parse_skills`: `token = p.strip().lower()`, kept when
non-empty and of length at most 40. -/
def skillsTokens (parts : List Str) : List Str :=
  parts.filterMap (fun p =>
    let token := pyLower (pyStrip p)
    if token ≠ [] ∧ token.length ≤ 40 then some token else none)

/-- The de-duplication loop at the end of `parse_skills` (`out, seen`): keep
the first occurrence of each string.  `dict.fromkeys` in
`extract_contact_info` has the same semantics. -/
def dedupFirstAux (seen : List Str) : List Str → List Str
  | [] => []
  | x :: xs =>
      if x ∈ seen then dedupFirstAux seen xs
      else x :: dedupFirstAux (x :: seen) xs

/-- First-occurrence de-duplication (exact string equality). -/
def dedupFirst (l : List Str) : List Str := dedupFirstAux [] l

/-- Embeds `parse_skills(text, sections, lines)` from ats_core.py. -/
def parse_skills (text : Str) (sections : Sections) (lines : List Str) :
    List Str :=
  let skills :=
    match lookupKey sections ("skills".data) with
    | some (s, e) =>
        let block := joinSpace (pySlice lines s e)
        skillsTokens (splitDelims block)
    | none =>
        let lt := pyLower text
        COMMON_SKILLS.filter (fun sk => isSubB sk lt)
  dedupFirst skills

/-- The token loop of `parse_languages`: `t = p.strip()`, appended when
non-empty (no lowercasing, no length bound, no de-duplication). -/
def languagesTokens (parts : List Str) : List Str :=
  parts.filterMap (fun p =>
    let t := pyStrip p
    if t ≠ [] then some t else none)

/-- Modelled from the spec: `src/ats_core.py` is cut off inside
`parse_languages` — the file ends at `items.append(t)` with no trailing
newline, and the functions `build_json_profile` and `keyword_score` that
`ats_cli.py` and `app_streamlit.py` import from it are missing entirely, so
the tail of the file (including the final `return items` of
`parse_languages`) is not under src/.  That final return is modelled from
the spec ("non-empty tokens kept in order"); everything before the cut
follows the source: if no `'languages'` section exists the function returns
the fresh empty `items`, otherwise it joins the section lines with spaces,
splits on the same delimiter regex as `parse_skills`, and collects the
non-empty stripped tokens in order. -/
def parse_languages (lines : List Str) (sections : Sections) : List Str :=
  match lookupKey sections ("languages".data) with
  | none => []
  | some (s, e) =>
      let block := joinSpace (pySlice lines s e)
      languagesTokens (splitDelims block)

/-! ## locate_sections -/

/-- The per-line header test of `locate_sections`:
`ll = line.lower().strip(': ').strip()`, then the first header of
`SECTION_HEADERS` with `ll == header or ll.startswith(header)`. -/
def firstHeader (line : Str) : Option Str :=
  let ll := pyStrip (stripChars [':', ' '] (pyLower line))
  SECTION_HEADERS.find? (fun h => ll = h || isPrefB h ll)

/-- The `(header, idx)` pairs collected by the scan loop of
`locate_sections`, in line order (at most one header per line). -/
def headerIndices (lines : List Str) : List (Str × Nat) :=
  (lines.enum.filterMap (fun li => (firstHeader li.2).map (·, li.1)))

/-- Stable insertion of a pair into a list sorted by the numeric component. -/
def insertByIdx (x : Str × Nat) : List (Str × Nat) → List (Str × Nat)
  | [] => [x]
  | y :: ys => if y.2 ≤ x.2 then y :: insertByIdx x ys else x :: y :: ys

/-- Embeds `indices.sort(key=lambda x: x[1])`: a stable sort by line index.
(The scan produces the pairs in strictly increasing line order already, so
this sort is the identity; it is kept to mirror the source.) -/
def sortByIdx : List (Str × Nat) → List (Str × Nat)
  | [] => []
  | x :: xs => insertByIdx x (sortByIdx xs)

/-- The sorted header occurrences `locate_sections` builds its ranges from. -/
def headerOccs (lines : List Str) : List (Str × Nat) :=
  sortByIdx (headerIndices lines)

/-- The range-building loop of `locate_sections`:
`sections[header] = (start + 1, end)` where `end` is the next occurrence's
line index, or `len(lines)` for the last occurrence. -/
def buildSections (n : Nat) : Sections → List (Str × Nat) → Sections
  | acc, [] => acc
  | acc, [(h, p)] => setKey acc h (p + 1, n)
  | acc, (h, p) :: (h', p') :: rest =>
      buildSections n (setKey acc h (p + 1, p')) ((h', p') :: rest)

/-- Embeds `locate_sections(lines)` from ats_core.py. -/
def locate_sections (lines : List Str) : Sections :=
  buildSections lines.length [] (headerOccs lines)

/-! ## The whitespace normalization of read_text_from_file

The tail of `read_text_from_file` applies, in order:
`re.sub(r'\r','\n')`, `re.sub(nbsp, ' ')`, `re.sub(r'\t',' ')`,
`re.sub(r' *\n *','\n')`, `re.sub(r'\n{3,}','\n\n')`, `text.strip()`. -/

/-- Embeds `re.sub(r'\r', '\n', text)`: a character-wise replacement. -/
def mapCR (s : Str) : Str := s.map (fun c => if c = '\r' then '\n' else c)

/-- Embeds `re.sub(nbsp, ' ', text)` — the non-breaking space U+00A0 becomes a space. -/
def mapNBSP (s : Str) : Str := s.map (fun c => if c = '\u00A0' then ' ' else c)

/-- Embeds `re.sub(r'\t', ' ', text)`. -/
def mapTAB (s : Str) : Str := s.map (fun c => if c = '\t' then ' ' else c)

/-- Embeds `re.sub(r' *\n *', '\n', text)`: every newline absorbs the runs of
space characters on both sides of it.  The scan mirrors the regex: a
newline is emitted and the following spaces dropped; a run of spaces
followed by a newline is dropped; a run of spaces not followed by a
newline is kept verbatim. -/
def trimNL : Str → Str
  | [] => []
  | '\n' :: rest => '\n' :: trimNL (rest.dropWhile (· = ' '))
  | ' ' :: rest =>
      if (rest.dropWhile (· = ' ')).head? = some '\n' then
        trimNL (rest.dropWhile (· = ' '))
      else ' ' :: (rest.takeWhile (· = ' ') ++ trimNL (rest.dropWhile (· = ' ')))
  | c :: rest => c :: trimNL rest
  termination_by s => s.length
  decreasing_by all_goals
    simp only [List.length_cons]
    first
    | exact Nat.lt_succ_of_le ((List.dropWhile_suffix _).sublist.length_le)
    | exact Nat.lt_succ_self _

/-- Embeds `re.sub(r'\n{3,}', '\n\n', text)`: a maximal run of three or more
newlines becomes exactly two; shorter runs are untouched (which the scan
realises as: a run of two or more becomes two; a single newline stays). -/
def collapseNL : Str → Str
  | [] => []
  | '\n' :: rest =>
      (if rest.head? = some '\n' then ['\n', '\n'] else ['\n']) ++
        collapseNL (rest.dropWhile (· = '\n'))
  | c :: rest => c :: collapseNL rest
  termination_by s => s.length
  decreasing_by all_goals
    simp only [List.length_cons]
    first
    | exact Nat.lt_succ_of_le ((List.dropWhile_suffix _).sublist.length_le)
    | exact Nat.lt_succ_self _

/-- The whitespace-normalization chain at the end of `read_text_from_file`
(the spec's `normalize`). -/
def normalize (s : Str) : Str :=
  pyStrip (collapseNL (trimNL (mapTAB (mapNBSP (mapCR s)))))

/-- An adjacent pair is allowed when it is neither space-newline nor
newline-space. -/
def okPair (a b : Char) : Bool :=
  !((a = ' ' && b = '\n') || (a = '\n' && b = ' '))

/-- The check `headOk c s`: the pair formed by `c` and the head of `s` is allowed. -/
def headOk (c : Char) : Str → Bool
  | [] => true
  | d :: _ => okPair c d

/-- No space character adjacent to a newline anywhere in the string. -/
def noSpNL : Str → Bool
  | [] => true
  | c :: rest => headOk c rest && noSpNL rest

/-- The string starts with two newlines. -/
def startsNN : Str → Bool
  | c :: d :: _ => c = '\n' && d = '\n'
  | _ => false

/-- No run of three (or more) consecutive newlines anywhere in the string. -/
def noTriple : Str → Bool
  | [] => true
  | c :: rest => !(c = '\n' && startsNN rest) && noTriple rest

/-! ## extract_contact_info: the email field

`re.findall(r'[A-Za-z0-9._%+-]+@[A-Za-z0-9.-]+\.[A-Za-z]{2,}', text, re.I)`
followed by `list(dict.fromkeys(emails))`.  The character classes already
contain both letter cases, so `re.I` does not change the match set.  At a
given position the greedy local part can only be the maximal run of local
characters (no shorter run is followed by `@`, since `@` is not a local
character); the greedy domain part backtracks to the rightmost dot of the
maximal domain run that is followed by at least two letters. -/

/-- The class `[A-Za-z0-9._%+-]` (local part of the email pattern). -/
def localChar (c : Char) : Bool :=
  c.isAlpha || c.isDigit || c = '.' || c = '_' || c = '%' || c = '+' || c = '-'

/-- The class `[A-Za-z0-9.-]` (domain part of the email pattern). -/
def domChar (c : Char) : Bool :=
  c.isAlpha || c.isDigit || c = '.' || c = '-'

/-- Backtracking of the greedy domain run: try the dot position `m`
downwards (`m = k, k-1, …, 1`), requiring a run of at least two letters
after it; returns the chosen dot position and the letter run. -/
def dotTry (r2 : Str) : Nat → Option (Nat × Str)
  | 0 => none
  | k + 1 =>
      if r2.get? (k + 1) = some '.' then
        let ltrs := (r2.drop (k + 2)).takeWhile Char.isAlpha
        if 2 ≤ ltrs.length then some (k + 1, ltrs) else dotTry r2 k
      else dotTry r2 k

/-- Try the email pattern at the start of `cs`; on success return the
matched text and the remainder of the string after the match. -/
def emailMatchAt (cs : Str) : Option (Str × Str) :=
  let L := cs.takeWhile localChar
  if L.isEmpty then none
  else
    match cs.drop L.length with
    | '@' :: r2 =>
        let D := r2.takeWhile domChar
        match dotTry r2 (D.length - 1) with
        | some (m, ltrs) =>
            some (L ++ '@' :: (r2.take m ++ '.' :: ltrs),
                  r2.drop (m + 1 + ltrs.length))
        | none => none
    | _ => none

/-- The scan loop of `re.findall`: leftmost non-overlapping matches,
advancing one character on failure.  The fuel is the string length; every
step consumes at least one character. -/
def emailScan : Nat → Str → List Str
  | _, [] => []
  | 0, _ :: _ => []
  | f + 1, cs@(_ :: rest) =>
      match emailMatchAt cs with
      | some (m, restAfter) => m :: emailScan f restAfter
      | none => emailScan f rest

/-- Embeds `re.findall(email_regex, text, flags=re.I)`. -/
def emailFindall (cs : Str) : List Str := emailScan cs.length cs

/-- The `'emails'` field of `extract_contact_info`:
`list(dict.fromkeys(re.findall(email_regex, text, flags=re.I)))`.
The phone and URL fields of the returned dict are computed independently
of it and are not modelled (no claim mentions them). -/
def extract_contact_info_emails (text : Str) : List Str :=
  dedupFirst (emailFindall text)

/-! ## parse_education -/

/-- A regex word character (`\w` / the sides of `\b`). -/
def isWordC (c : Char) : Bool := c.isAlpha || c.isDigit || c = '_'

/-- One element of a degree-pattern alternative: a literal character or an
optional dot (`\.?`). -/
inductive DegItem
  | ch (c : Char)
  | optDot
deriving DecidableEq

/-- Literal items for a string. -/
def litItems (s : Str) : List DegItem := s.map DegItem.ch

/-- The alternatives of
`\b(b\.?e\.?|b\.?tech|bachelor|m\.?e\.?|m\.?tech|master|mba|bsc|msc|phd)\b`. -/
def degAlts : List (List DegItem) :=
  [ [DegItem.ch 'b', DegItem.optDot, DegItem.ch 'e', DegItem.optDot],
    [DegItem.ch 'b', DegItem.optDot] ++ litItems ("tech".data),
    litItems ("bachelor".data),
    [DegItem.ch 'm', DegItem.optDot, DegItem.ch 'e', DegItem.optDot],
    [DegItem.ch 'm', DegItem.optDot] ++ litItems ("tech".data),
    litItems ("master".data),
    litItems ("mba".data),
    litItems ("bsc".data),
    litItems ("msc".data),
    litItems ("phd".data) ]

/-- All ways one alternative can match a prefix of `cs`, each described by
the last consumed character and the remainder (an optional dot may be
taken or skipped, which the final `\b` test discriminates). -/
def degEnds : List DegItem → Char → Str → List (Char × Str)
  | [], last, cs => [(last, cs)]
  | DegItem.ch c :: items, _, cs =>
      match cs with
      | d :: rest => if d = c then degEnds items c rest else []
      | [] => []
  | DegItem.optDot :: items, last, cs =>
      match cs with
      | '.' :: rest => degEnds items '.' rest ++ degEnds items last cs
      | _ => degEnds items last cs

/-- Embeds `\b` at the end of a match: between the last consumed character and
the head of the remainder (or the end of the string). -/
def endBoundary (last : Char) : Str → Bool
  | [] => isWordC last
  | d :: _ => isWordC last != isWordC d

/-- The degree pattern matches at this position (`prev` is the character
just before the position, for the leading `\b`; every alternative starts
with a word character). -/
def degMatchAt (prev : Option Char) (cs : Str) : Bool :=
  (match prev with | some c => !isWordC c | none => true) &&
  degAlts.any (fun alt =>
    (degEnds alt ' ' cs).any (fun e => endBoundary e.1 e.2))

/-- Scan for the degree pattern from every position. -/
def degSearchAux : Option Char → Str → Bool
  | prev, [] => degMatchAt prev []
  | prev, cs@(c :: rest) => degMatchAt prev cs || degSearchAux (some c) rest

/-- Embeds `re.search(r'\b(b\.?e\.?|…|phd)\b', ll)` as a Boolean. -/
def degreeSearch (ll : Str) : Bool := degSearchAux none ll

/-- One match of `re.findall(r'(20\d{2}|19\d{2})', line)` at the current
position: `20` or `19` followed by two digits. -/
def yearMatchAt : Str → Option (Str × Str)
  | a :: b :: c :: d :: rest =>
      if ((a = '2' && b = '0') || (a = '1' && b = '9')) && c.isDigit && d.isDigit
      then some ([a, b, c, d], rest) else none
  | _ => none

/-- The findall scan for year tokens (fuel = string length). -/
def yearScan : Nat → Str → List Str
  | _, [] => []
  | 0, _ :: _ => []
  | f + 1, cs@(_ :: rest) =>
      match yearMatchAt cs with
      | some (m, restAfter) => m :: yearScan f restAfter
      | none => yearScan f rest

/-- Embeds `re.findall(r'(20\d{2}|19\d{2})', line)` (on the original line — the
source does not lowercase here, though digits are unaffected anyway). -/
def yearFindall (line : Str) : List Str := yearScan line.length line

/-- Embeds `re.search(r'university|college|institute|iit|nit', ll)`: plain
substring alternation. -/
def institutionHit (ll : Str) : Bool :=
  (["university", "college", "institute", "iit", "nit"].map String.data).any
    (fun w => isSubB w ll)

/-- One attempt of `(?:cgpa|gpa|percentage)[: ]+([0-9.]{1,4})` at the
current position; the keyword alternatives have pairwise distinct first
characters, so at most one applies, and the greedy `[: ]+` run never needs
to backtrack because `:`/space are not in `[0-9.]`. -/
def gradeMatchAt (cs : Str) : Option Str :=
  match (["cgpa", "gpa", "percentage"].map String.data).find?
      (fun k => isPrefB k cs) with
  | none => none
  | some k =>
      let rest := cs.drop k.length
      let sep := rest.takeWhile (fun c => c = ':' || c = ' ')
      if sep.isEmpty then none
      else
        let dg := (rest.drop sep.length).takeWhile (fun c => c.isDigit || c = '.')
        let g := dg.take 4
        if g.isEmpty then none else some g

/-- The position scan of `re.search` for the grade pattern, returning
group 1 of the leftmost match. -/
def gradeSearch : Str → Option Str
  | [] => none
  | cs@(_ :: rest) => (gradeMatchAt cs) <|> gradeSearch rest

/-- An education entry: the Python dict with keys degree / institution /
year / grade (`none` = key absent). -/
structure EduEntry where
  degree : Option Str := none
  institution : Option Str := none
  year : Option Str := none
  grade : Option Str := none
deriving DecidableEq, Repr

/-- Python `if current:` — a dict is falsy exactly when it has no keys. -/
def eduEmpty (e : EduEntry) : Bool :=
  e.degree.isNone && e.institution.isNone && e.year.isNone && e.grade.isNone

/-- One iteration of the `parse_education` loop: returns the entries
flushed by this line and the updated current entry.  A degree line flushes
the non-empty accumulator and starts a new one, then `continue`s — the
year / institution / grade checks run only on non-degree lines. -/
def eduStep (cur : EduEntry) (line : Str) : List EduEntry × EduEntry :=
  let ll := pyLower line
  if degreeSearch ll then
    ((if eduEmpty cur then [] else [cur]), { degree := some line })
  else
    let cur1 := match (yearFindall line).getLast? with
      | some y => { cur with year := some y }
      | none => cur
    let cur2 := if institutionHit ll then { cur1 with institution := some line }
      else cur1
    let cur3 := match gradeSearch ll with
      | some g => { cur2 with grade := some g }
      | none => cur2
    ([], cur3)

/-- The `parse_education` loop over the section lines, with the final
flush of a non-empty accumulator. -/
def eduLoop (cur : EduEntry) : List Str → List EduEntry
  | [] => if eduEmpty cur then [] else [cur]
  | l :: ls =>
      let s := eduStep cur l
      s.1 ++ eduLoop s.2 ls

/-- Embeds `parse_education(lines, sections)` from ats_core.py. -/
def parse_education (lines : List Str) (sections : Sections) : List EduEntry :=
  match lookupKey sections ("education".data) with
  | none => []
  | some (s, e) => eduLoop {} (pySlice lines s e)

/-! ## parse_dates

Four patterns are tried in order against the lowercased line; the first
`re.search` hit wins and its matched text is returned.  The patterns are
sequences of: a month alternation, `' *'`, a year (`(?:19|20)\d{2}`), a
separator (`-` or `to`), and the literal `present`.  For these patterns a
deterministic matcher agrees with backtracking search: the alternations
are lists of same-length or distinct-first-character literals (so at most
one alternative can match at a position), and the token following a
`' *'` run never begins with a space (so the greedy run never has to give
characters back). -/

/-- Tokens of the date patterns. -/
inductive RTok
  | lit (s : Str)
  | alts (ss : List Str)
  | star (c : Char)
  | digit
deriving DecidableEq

/-- First alternative that is a prefix of `cs`. -/
def firstPrefAlt (ss : List Str) (cs : Str) : Option Str :=
  ss.find? (fun s => isPrefB s cs)

/-- Match a token sequence at the start of `cs`, returning the matched
text. -/
def matchToks : List RTok → Str → Option Str
  | [], _ => some []
  | RTok.lit s :: ts, cs =>
      if isPrefB s cs then (matchToks ts (cs.drop s.length)).map (s ++ ·)
      else none
  | RTok.alts ss :: ts, cs =>
      match firstPrefAlt ss cs with
      | some s => (matchToks ts (cs.drop s.length)).map (s ++ ·)
      | none => none
  | RTok.star c :: ts, cs =>
      let run := cs.takeWhile (· = c)
      (matchToks ts (cs.drop run.length)).map (run ++ ·)
  | RTok.digit :: ts, cs =>
      match cs with
      | d :: rest => if d.isDigit then (matchToks ts rest).map (d :: ·) else none
      | [] => none

/-- Embeds `re.search`: leftmost position at which the pattern matches. -/
def searchToks (p : List RTok) : Str → Option Str
  | [] => matchToks p []
  | cs@(_ :: rest) => (matchToks p cs) <|> searchToks p rest

/-- The month abbreviation alternation. -/
def monthTok : RTok :=
  RTok.alts (["jan", "feb", "mar", "apr", "may", "jun", "jul", "aug", "sep",
    "oct", "nov", "dec"].map String.data)

/-- Embeds `(?:19|20)\d{2}`. -/
def yearToks : List RTok :=
  [RTok.alts ["19".data, "20".data], RTok.digit, RTok.digit]

/-- Embeds `' *'`. -/
def spTok : RTok := RTok.star ' '

/-- Embeds `(?:-|to)`. -/
def sepTok : RTok := RTok.alts ["-".data, "to".data]

/-- The four date patterns, in trial order. -/
def datePatterns : List (List RTok) :=
  [ [monthTok, spTok] ++ yearToks ++ [spTok, sepTok, spTok, monthTok, spTok]
      ++ yearToks,
    [monthTok, spTok] ++ yearToks ++ [spTok, sepTok, spTok,
      RTok.lit ("present".data)],
    yearToks ++ [spTok, sepTok, spTok] ++ yearToks,
    yearToks ++ [spTok, sepTok, spTok, RTok.lit ("present".data)] ]

/-- Embeds `parse_dates(line)` from ats_core.py (empty string when no pattern
matches). -/
def parse_dates (line : Str) : Str :=
  let ll := pyLower line
  match datePatterns.findSome? (fun p => searchToks p ll) with
  | some m => m
  | none => []

/-! ## parse_experience -/

/-- Embeds `re.match(r'^[-*•] ', line)`. -/
def isBulletLine : Str → Bool
  | c :: ' ' :: _ => c = '-' || c = '*' || c = '•'
  | _ => false

/-- Embeds `line.split()`: split on whitespace runs, dropping empty pieces
(fuel = string length; every step consumes at least one character). -/
def splitWsF : Nat → Str → List Str
  | _, [] => []
  | 0, _ :: _ => []
  | f + 1, c :: rest =>
      if isPyWs c then splitWsF f rest
      else (c :: rest.takeWhile (fun d => !isPyWs d)) ::
        splitWsF f (rest.dropWhile (fun d => !isPyWs d))

/-- Python `line.split()`. -/
def splitWs (s : Str) : List Str := splitWsF s.length s

/-- Python `w[:1].isupper()`. -/
def firstUpper : Str → Bool
  | c :: _ => c.isUpper
  | [] => false

/-- The role/company-header candidate test of `parse_experience`:
`re.search(r'@| at ', line.lower())` or at least three capitalized words
among at most twelve. -/
def isHeaderCand (line : Str) : Bool :=
  let ll := pyLower line
  (isSubB ['@'] ll || isSubB (" at ".data) ll) ||
  (3 ≤ ((splitWs line).filter firstUpper).length && (splitWs line).length ≤ 12)

/-- Embeds `re.split(r'\s@\s|\s at \s', line, flags=re.I)`.  The first
alternative is whitespace, `@`, whitespace; the second is whitespace, a
literal space, `a`, `t`, a literal space, whitespace — so a single space
on each side of `at` does not satisfy it.  The alternatives are tried in
order at each position; a match consumes its characters and splitting
continues after it. -/
def splitRe1 : Str → List Str
  | [] => [[]]
  | c1 :: '@' :: c3 :: rest =>
      if isPyWs c1 && isPyWs c3 then [] :: splitRe1 rest
      else consHead c1 (splitRe1 ('@' :: c3 :: rest))
  | c1 :: ' ' :: c3 :: c4 :: ' ' :: c6 :: rest =>
      if isPyWs c1 && c3.toLower = 'a' && c4.toLower = 't' && isPyWs c6
      then [] :: splitRe1 rest
      else consHead c1 (splitRe1 (' ' :: c3 :: c4 :: ' ' :: c6 :: rest))
  | c1 :: rest => consHead c1 (splitRe1 rest)

/-- Embeds `re.split(r'\s-\s|\s\|\s', line)`. -/
def splitRe2 : Str → List Str
  | [] => [[]]
  | c1 :: '-' :: c3 :: rest =>
      if isPyWs c1 && isPyWs c3 then [] :: splitRe2 rest
      else consHead c1 (splitRe2 ('-' :: c3 :: rest))
  | c1 :: '|' :: c3 :: rest =>
      if isPyWs c1 && isPyWs c3 then [] :: splitRe2 rest
      else consHead c1 (splitRe2 ('|' :: c3 :: rest))
  | c1 :: rest => consHead c1 (splitRe2 rest)

/-- An experience entry: the Python dict with keys role / company / dates
(`none` = key absent) plus the bullets and description lists. -/
structure ExpEntry where
  role : Option Str := none
  company : Option Str := none
  dates : Option Str := none
  bullets : List Str := []
  description : List Str := []
deriving DecidableEq, Repr

/-- Python truthiness of `cur.get(k)` for a string value: the key is
present and the string non-empty. -/
def optTruthy : Option Str → Bool
  | some s => !s.isEmpty
  | none => false

/-- The flush condition of `parse_experience`:
`cur.get('role') or cur.get('company') or cur.get('bullets')`. -/
def expFlushable (e : ExpEntry) : Bool :=
  optTruthy e.role || optTruthy e.company || !e.bullets.isEmpty

/-- The header-line parse of `parse_experience`: split on
`\s@\s|\s at \s` into exactly two parts → role, company; else split on
`\s-\s|\s\|\s` into exactly two parts → role, company; else the whole
stripped line becomes the role. -/
def headerParse (line : Str) : Option Str × Option Str :=
  match splitRe1 line with
  | [a, b] => (some (pyStrip a), some (pyStrip b))
  | _ =>
      match splitRe2 line with
      | [a, b] => (some (pyStrip a), some (pyStrip b))
      | _ => (some (pyStrip line), none)

/-- One iteration of the `parse_experience` loop on state
(entries so far, current accumulator). -/
def expStep (st : List ExpEntry × ExpEntry) (line : Str) :
    List ExpEntry × ExpEntry :=
  let entries := st.1
  let cur := st.2
  if (pyStrip line).isEmpty then (entries, cur)
  else if isBulletLine line then
    (entries,
      { cur with bullets := cur.bullets ++ [lstripChars ['-', '*', '•', ' '] line] })
  else if parse_dates line ≠ [] then
    (entries, { cur with dates := some (parse_dates line) })
  else if isHeaderCand line then
    let entries' := if expFlushable cur then entries ++ [cur] else entries
    let rc := headerParse line
    (entries', { role := rc.1, company := rc.2 })
  else if 10 < line.length then
    (entries, { cur with description := cur.description ++ [line] })
  else (entries, cur)

/-- Embeds `parse_experience(lines, sections)` from ats_core.py. -/
def parse_experience (lines : List Str) (sections : Sections) :
    List ExpEntry :=
  match (["experience", "work experience", "professional experience"].map
      String.data).findSome? (lookupKey sections) with
  | none => []
  | some (s, e) =>
      let st := (pySlice lines s e).foldl expStep ([], {})
      if expFlushable st.2 then st.1 ++ [st.2] else st.1

/-! ## read_text_from_file: the format dispatch

The extension dispatch of `read_text_from_file`, with the out-of-scope
collaborators abstracted: the availability of PyPDF2 / python-docx becomes
a Boolean flag each, and the actual file reading (and the text it yields)
becomes the `Unit` success payload.  `ext` is the already-lowercased
extension `os.path.splitext(file_path.lower())[1]`. -/
def read_text_dispatch (ext : Str) (pdfAvailable docxAvailable : Bool) :
    Except Str Unit :=
  if ext = ".pdf".data then
    if pdfAvailable then Except.ok ()
    else Except.error ("PyPDF2 not available. Install with: pip install PyPDF2".data)
  else if ext = ".docx".data ∨ ext = ".doc".data then
    if !docxAvailable then
      Except.error ("python-docx not available. Install with: pip install python-docx".data)
    else if ext = ".doc".data then
      Except.error (".doc not supported; please convert to .docx".data)
    else Except.ok ()
  else if ext = ".txt".data ∨ ext = ".md".data then Except.ok ()
  else Except.error ("Unsupported file type: ".data ++ ext)

/-! ## Spec-side definitions and statement helpers -/

/-- Spec-side description of the Languages extractor (§4.10): "section
lines concatenated and split on the same delimiter set as Skills, trimmed,
non-empty tokens kept in order (no lowercasing, no de-duplication)".
Used only to compare `parse_languages` against the spec's words. -/
def languagesSpecTokens (lines : List Str) (s e : Nat) : List Str :=
  ((splitDelims (joinSpace (pySlice lines s e))).map pyStrip).filter
    (fun t => !t.isEmpty)

/-- The body-range end for occurrence `i`: the next occurrence's line
index, or `n` (the number of lines) for the last occurrence. -/
def nextEnd (occs : List (Str × Nat)) (i n : Nat) : Nat :=
  match occs.get? (i + 1) with
  | some y => y.2
  | none => n

/-- Boolean list membership (by decidable equality). -/
def memB (x : Str) (l : List Str) : Bool := l.any (fun y => y = x)

end ATS

/-! # Theorems -/

namespace ATS

/-- The function `languagesTokens` is map-strip-then-keep-non-empty. -/
theorem languagesTokens_eq (parts : List Str) :
    languagesTokens parts = (parts.map pyStrip).filter (fun t => !t.isEmpty) := by
  induction parts with
  | nil => rfl
  | cons p ps ih =>
      simp only [languagesTokens, ne_eq, ite_not] at ih ⊢
      rw [List.filterMap_cons, List.map_cons, List.filter_cons]
      by_cases h : pyStrip p = []
      · simp [h, ih]
      · simp [h, ih]

/-- C1: for every line list and section map in which a `'languages'`
section is present with range `[s, e)`, `parse_languages` returns the
ordered list of non-empty trimmed tokens obtained by joining `lines[s:e]`
with spaces and splitting on the Skills delimiter set (no lowercasing, no
de-duplication); when no `'languages'` section is present it returns the
empty list. -/
theorem parse_languages_correct (lines : List Str) (sections : Sections) :
    parse_languages lines sections =
      match lookupKey sections ("languages".data) with
      | some (s, e) => languagesSpecTokens lines s e
      | none => [] := by
  unfold parse_languages languagesSpecTokens
  cases lookupKey sections ("languages".data) with
  | none => rfl
  | some se => cases se with
    | mk s e => simpa using languagesTokens_eq _

/-- C2 counterexample: the split regex does not treat a lone pipe or a
lone slash as a delimiter, so the section line `'python | sql'` yields the
single token `'python | sql'` (not `'python'` and `'sql'`), and
`'python/sql'` yields the single token `'python/sql'`. -/
theorem parse_skills_pipe_slash_counterexample :
    parse_skills [] [(("skills".data), 0, 1)] ["python | sql".data] =
      ["python | sql".data] ∧
    parse_skills [] [(("skills".data), 0, 1)] ["python | sql".data] ≠
      ["python".data, "sql".data] ∧
    parse_skills [] [(("skills".data), 0, 1)] ["python/sql".data] =
      ["python/sql".data] := by
  refine ⟨by decide, by decide, by decide⟩

/-- C2 amended: the delimiters are comma, semicolon, newline, bullet,
hyphen, and the two-character sequence `|/` (the regex branch is `\|/`);
a lone pipe or slash does not split, in `parse_skills` and
`parse_languages` alike. -/
theorem parse_skills_delimiters :
    parse_skills [] [(("skills".data), 0, 1)] ["a, b; c - d • e".data] =
      ["a".data, "b".data, "c".data, "d".data, "e".data] ∧
    parse_skills [] [(("skills".data), 0, 1)] ["python |/ sql".data] =
      ["python".data, "sql".data] ∧
    parse_skills [] [(("skills".data), 0, 1)] ["python | sql".data] =
      ["python | sql".data] ∧
    parse_skills [] [(("skills".data), 0, 1)] ["python/sql".data] =
      ["python/sql".data] ∧
    parse_languages ["English | Hindi".data] [(("languages".data), 0, 1)] =
      ["English | Hindi".data] ∧
    parse_languages ["English |/ Hindi, Tamil".data]
        [(("languages".data), 0, 1)] =
      ["English".data, "Hindi".data, "Tamil".data] := by
  refine ⟨by decide, by decide, by decide, by decide, by decide, by decide⟩

/-- C9: the format dispatch of `read_text_from_file` raises for every
extension outside the five known ones, always raises for `.doc`, and
never raises for `.txt`/`.md` on account of the extension. -/
theorem read_dispatch_errors (ext : Str) (pa da : Bool) :
    (ext ≠ ".pdf".data → ext ≠ ".docx".data → ext ≠ ".doc".data →
      ext ≠ ".txt".data → ext ≠ ".md".data →
      ∃ m, read_text_dispatch ext pa da = Except.error m) ∧
    (ext = ".doc".data → ∃ m, read_text_dispatch ext pa da = Except.error m) ∧
    ((ext = ".txt".data ∨ ext = ".md".data) →
      read_text_dispatch ext pa da = Except.ok ()) := by
  refine ⟨?_, ?_, ?_⟩
  · intro h1 h2 h3 h4 h5
    unfold read_text_dispatch
    rw [if_neg h1, if_neg (not_or.mpr ⟨h2, h3⟩), if_neg (not_or.mpr ⟨h4, h5⟩)]
    exact ⟨_, rfl⟩
  · intro h
    subst h
    cases da
    · exact ⟨_, rfl⟩
    · exact ⟨_, rfl⟩
  · intro h
    rcases h with h | h <;> subst h <;> rfl

/-- C4 counterexample: the degree branch of `parse_education` ends in
`continue`, so the line `'B.Tech 2021'` — which matches the degree
pattern — starts an entry whose `year` is *not* set, although the line
contains the 4-digit year token `2021`. -/
theorem parse_education_degree_year_counterexample :
    parse_education ["B.Tech 2021".data] [(("education".data), 0, 1)] =
      [{ degree := some ("B.Tech 2021".data), institution := none,
         year := none, grade := none }] := by
  decide

/-- C4 amended: the year check runs only on lines that do not match the
degree pattern; a degree line starts a fresh entry holding only `degree`,
and on a non-degree line `year` is set to the last 4-digit year token. -/
theorem parse_education_year_rule :
    (∀ cur line, degreeSearch (pyLower line) = true →
      (eduStep cur line).2 = { degree := some line }) ∧
    (∀ cur line y, degreeSearch (pyLower line) = false →
      (yearFindall line).getLast? = some y →
      (eduStep cur line).2.year = some y) := by
  constructor
  · intro cur line h
    simp [eduStep, h]
  · intro cur line y h hy
    simp only [eduStep, h, hy, Bool.false_eq_true, if_false]
    split <;> split <;> rfl

/-- Witness for C4's amended rule at a concrete non-degree line. -/
theorem parse_education_year_rule_witness :
    (eduStep {} ("XYZ Institute 2019".data)).2.year = some ("2019".data) :=
  parse_education_year_rule.2 {} ("XYZ Institute 2019".data) ("2019".data)
    (by decide) (by decide)

/-- C5 counterexample: `'Software Engineer at Acme Corp'` (single spaces
around `at`) is a header candidate but does not split on
`\s@\s|\s at \s`, so the whole line becomes the role and no company is
produced. -/
theorem parse_experience_at_counterexample :
    parse_experience ["Software Engineer at Acme Corp".data]
        [(("experience".data), 0, 1)] =
      [{ role := some ("Software Engineer at Acme Corp".data),
         company := none, dates := none, bullets := [], description := [] }] := by
  decide

/-- C5 amended: `' @ '` with single spaces splits into role and company,
but the `' at '` alternative of the split pattern is `\s at \s`, which
needs an extra whitespace character on each side; with single spaces the
line does not split there and (failing `' - '`/`' | '` too) becomes the
role whole. -/
theorem parse_experience_header_rules :
    headerParse ("Software Engineer @ Acme Corp".data) =
      (some ("Software Engineer".data), some ("Acme Corp".data)) ∧
    headerParse ("Software Engineer  at  Acme Corp".data) =
      (some ("Software Engineer".data), some ("Acme Corp".data)) ∧
    headerParse ("Software Engineer at Acme Corp".data) =
      (some ("Software Engineer at Acme Corp".data), none) ∧
    headerParse ("Lead - Platform".data) =
      (some ("Lead".data), some ("Platform".data)) ∧
    (∀ line a b, splitRe1 line = [a, b] →
      headerParse line = (some (pyStrip a), some (pyStrip b))) ∧
    (∀ line, (splitRe1 line).length ≠ 2 → (splitRe2 line).length ≠ 2 →
      headerParse line = (some (pyStrip line), none)) := by
  refine ⟨by decide, by decide, by decide, by decide, ?_, ?_⟩
  · intro line a b h
    unfold headerParse
    rw [h]
  · intro line h1 h2
    unfold headerParse
    rcases hs1 : splitRe1 line with _ | ⟨a, _ | ⟨b, _ | ⟨c, t⟩⟩⟩
    · rcases hs2 : splitRe2 line with _ | ⟨a, _ | ⟨b, _ | ⟨c, t⟩⟩⟩ <;>
        first
        | rfl
        | exact absurd (by simp [hs2]) h2
    · rcases hs2 : splitRe2 line with _ | ⟨a2, _ | ⟨b2, _ | ⟨c2, t2⟩⟩⟩ <;>
        first
        | rfl
        | exact absurd (by simp [hs2]) h2
    · exact absurd (by simp [hs1]) h1
    · rcases hs2 : splitRe2 line with _ | ⟨a2, _ | ⟨b2, _ | ⟨c2, t2⟩⟩⟩ <;>
        first
        | rfl
        | exact absurd (by simp [hs2]) h2

/-- Witness for C5's amended rules: the whole-line fallback applied at a
concrete line. -/
theorem parse_experience_header_rules_witness :
    headerParse ("Engineering".data) = (some ("Engineering".data), none) :=
  parse_experience_header_rules.2.2.2.2.2 ("Engineering".data)
    (by decide) (by decide)

/-- The entries accumulated by the `parse_experience` loop all satisfy the
flush condition, for any starting state whose entries do. -/
theorem expFoldl_all_flushable (ls : List Str) :
    ∀ st : List ExpEntry × ExpEntry, st.1.all expFlushable = true →
      ((ls.foldl expStep st).1).all expFlushable = true := by
  induction ls with
  | nil => intro st h; exact h
  | cons l ls ih =>
      intro st h
      rw [List.foldl_cons]
      apply ih
      unfold expStep
      by_cases h1 : (pyStrip l).isEmpty <;>
        by_cases h2 : isBulletLine l <;>
        by_cases h3 : parse_dates l = [] <;>
        by_cases h4 : isHeaderCand l <;>
        by_cases h5 : expFlushable st.2 <;>
        by_cases h6 : 10 < l.length <;>
        simp [h1, h2, h3, h4, h5, h6, List.all_append, h]

/-- C10: every entry `parse_experience` returns satisfies the flush
condition — a truthy role, a truthy company, or a non-empty bullets list
(so in particular it has at least one of those fields) — and an
accumulator holding only dates and description lines is never emitted:
a section of one date line and one description line yields no entries. -/
theorem parse_experience_entries_nonvacuous :
    (∀ lines sections, (parse_experience lines sections).all expFlushable = true) ∧
    parse_experience
        ["jan 2020 - dec 2021".data, "worked on various things".data]
        [(("experience".data), 0, 2)] = [] := by
  constructor
  · intro lines sections
    unfold parse_experience
    split
    · rfl
    · rename_i s e heq
      have base : (([] : List ExpEntry), ({} : ExpEntry)).1.all
          expFlushable = true := rfl
      have hall := expFoldl_all_flushable (pySlice lines s e) _ base
      dsimp only
      split
      · rename_i hfl
        rw [List.all_append, hall]
        simp only [List.all_cons, List.all_nil, hfl, Bool.and_true,
          Bool.true_and]
      · exact hall
  · decide

/-- Membership in the first-occurrence de-duplication. -/
theorem mem_dedupFirstAux (x : Str) :
    ∀ (l : List Str) (seen : List Str),
      x ∈ dedupFirstAux seen l ↔ (x ∈ l ∧ x ∉ seen) := by
  intro l
  induction l with
  | nil => intro seen; simp [dedupFirstAux]
  | cons y ys ih =>
      intro seen
      by_cases hy : y ∈ seen
      · rw [dedupFirstAux, if_pos hy, ih]
        constructor
        · rintro ⟨hm, hs⟩
          exact ⟨List.mem_cons_of_mem _ hm, hs⟩
        · rintro ⟨hm, hs⟩
          rcases List.mem_cons.mp hm with rfl | hm
          · exact absurd hy hs
          · exact ⟨hm, hs⟩
      · rw [dedupFirstAux, if_neg hy]
        constructor
        · intro hm
          rcases List.mem_cons.mp hm with rfl | hm
          · exact ⟨List.mem_cons_self _ _, hy⟩
          · rcases (ih _).mp hm with ⟨h1, h2⟩
            exact ⟨List.mem_cons_of_mem _ h1,
              fun hx => h2 (List.mem_cons_of_mem _ hx)⟩
        · rintro ⟨hm, hs⟩
          rcases List.mem_cons.mp hm with rfl | hm
          · exact List.mem_cons_self _ _
          · by_cases hxy : x = y
            · subst hxy; exact List.mem_cons_self _ _
            · refine List.mem_cons_of_mem _ ((ih _).mpr ⟨hm, fun hx => ?_⟩)
              rcases List.mem_cons.mp hx with h | h
              · exact hxy h
              · exact hs h

/-- The de-duplication output is a sublist of its input (order kept). -/
theorem dedupFirstAux_sublist :
    ∀ (l : List Str) (seen : List Str), (dedupFirstAux seen l).Sublist l := by
  intro l
  induction l with
  | nil => intro seen; simp [dedupFirstAux]
  | cons y ys ih =>
      intro seen
      rw [dedupFirstAux]
      by_cases hy : y ∈ seen
      · rw [if_pos hy]
        exact (ih seen).cons _
      · rw [if_neg hy]
        exact (ih (y :: seen)).cons₂ _

/-- The de-duplication output has no duplicates. -/
theorem nodup_dedupFirstAux :
    ∀ (l : List Str) (seen : List Str), (dedupFirstAux seen l).Nodup := by
  intro l
  induction l with
  | nil => intro seen; simp [dedupFirstAux]
  | cons y ys ih =>
      intro seen
      rw [dedupFirstAux]
      by_cases hy : y ∈ seen
      · rw [if_pos hy]; exact ih seen
      · rw [if_neg hy]
        refine List.nodup_cons.mpr ⟨fun hm => ?_, ih (y :: seen)⟩
        exact ((mem_dedupFirstAux y ys (y :: seen)).mp hm).2
          (List.mem_cons_self _ _)

/-- The check `memB` agrees with membership. -/
theorem memB_iff (x : Str) (l : List Str) : memB x l = true ↔ x ∈ l := by
  simp [memB, List.any_eq_true]

/-- C3 counterexample: two email matches differing only in letter case
both survive the de-duplication — it compares exact strings, not
lowercased ones. -/
theorem extract_emails_case_counterexample :
    extract_contact_info_emails ("A@b.co a@b.co".data) =
      ["A@b.co".data, "a@b.co".data] ∧
    pyLower ("A@b.co".data) = pyLower ("a@b.co".data) := by
  exact ⟨by decide, by decide⟩

/-- C3 amended: the `'emails'` field de-duplicates by exact string
equality, preserving first-seen order — the output has no duplicate
string, is a subsequence of the findall matches, and retains every match
(up to exact duplicates); matches differing only in case stay separate
entries. -/
theorem extract_emails_dedup_exact (text : Str) :
    (extract_contact_info_emails text).Nodup ∧
    (extract_contact_info_emails text).Sublist (emailFindall text) ∧
    (emailFindall text).all
      (fun m => memB m (extract_contact_info_emails text)) = true := by
  refine ⟨nodup_dedupFirstAux _ _, dedupFirstAux_sublist _ _, ?_⟩
  rw [List.all_eq_true]
  intro m hm
  exact (memB_iff _ _).mpr
    ((mem_dedupFirstAux m (emailFindall text) []).mpr ⟨hm, by simp⟩)

/-- Lookup after setting the same key. -/
theorem lookupKey_setKey_self {K V : Type} [DecidableEq K]
    (d : List (K × V)) (k : K) (v : V) :
    lookupKey (setKey d k v) k = some v := by
  induction d with
  | nil => simp [setKey, lookupKey]
  | cons kv rest ih =>
      cases kv with
      | mk k1 v1 =>
          by_cases h : k1 = k
          · subst h; simp [setKey, lookupKey]
          · simp [setKey, h, lookupKey, ih]

/-- Lookup after setting a different key. -/
theorem lookupKey_setKey_ne {K V : Type} [DecidableEq K]
    (d : List (K × V)) (k : K) (v : V) (k' : K) (hne : k' ≠ k) :
    lookupKey (setKey d k v) k' = lookupKey d k' := by
  induction d with
  | nil =>
      simp only [setKey, lookupKey]
      rw [if_neg (fun he => hne he.symm)]
  | cons kv rest ih =>
      cases kv with
      | mk k1 v1 =>
          by_cases h : k1 = k
          · subst h
            simp only [setKey, if_pos rfl, lookupKey]
            rw [if_neg (fun he => hne he.symm), if_neg (fun he => hne he.symm)]
          · simp only [setKey, if_neg h, lookupKey]
            by_cases h2 : k1 = k'
            · rw [if_pos h2, if_pos h2]
            · rw [if_neg h2, if_neg h2]
              exact ih

/-- The function `buildSections` leaves keys it never writes alone. -/
theorem buildSections_notmem :
    ∀ (occs : List (Str × Nat)) (n : Nat) (k : Str),
      (∀ x ∈ occs, x.1 ≠ k) →
      ∀ acc, lookupKey (buildSections n acc occs) k = lookupKey acc k := by
  intro occs
  induction occs with
  | nil => intro n k _ acc; rfl
  | cons x tail ih =>
      intro n k hk acc
      cases tail with
      | nil =>
          cases x with
          | mk h p =>
              rw [buildSections]
              exact lookupKey_setKey_ne _ _ _ _
                (fun he => hk (h, p) (List.mem_cons_self _ _) he.symm)
      | cons y rest =>
          cases x with
          | mk h p =>
              rw [buildSections]
              rw [ih n k (fun z hz => hk z (List.mem_cons_of_mem _ hz))]
              exact lookupKey_setKey_ne _ _ _ _
                (fun he => (hk (h, p) (List.mem_cons_self _ _)) he.symm)

/-- The final map entry of a header is the range of its last occurrence:
`[p + 1, next occurrence or number of lines)`. -/
theorem buildSections_last :
    ∀ (occs : List (Str × Nat)) (n : Nat) (i : Nat) (h : Str) (p : Nat),
      occs.get? i = some (h, p) →
      h ∉ ((occs.drop (i + 1)).map Prod.fst) →
      ∀ acc, lookupKey (buildSections n acc occs) h =
        some (p + 1, nextEnd occs i n) := by
  intro occs
  induction occs with
  | nil => intro n i h p hget; simp at hget
  | cons x tail ih =>
      intro n i h p hget hlast acc
      cases tail with
      | nil =>
          cases i with
          | zero =>
              simp only [List.get?] at hget
              injection hget with hx
              subst hx
              rw [buildSections, nextEnd]
              simp [lookupKey_setKey_self]
          | succ j =>
              simp only [List.get?] at hget
              cases j <;> simp at hget
      | cons y rest =>
          cases i with
          | zero =>
              simp only [List.get?] at hget
              injection hget with hx
              subst hx
              simp only [List.drop_succ_cons, List.drop_zero] at hlast
              rw [buildSections]
              rw [buildSections_notmem (y :: rest) n h
                (fun z hz he => hlast (he ▸ List.mem_map_of_mem Prod.fst hz))]
              rw [lookupKey_setKey_self]
              rfl
          | succ j =>
              have hget' : (y :: rest).get? j = some (h, p) := hget
              have hlast' : h ∉ (((y :: rest).drop (j + 1)).map Prod.fst) := by
                simpa using hlast
              cases x with
              | mk hx px =>
                  rw [buildSections]
                  rw [ih n j h p hget' hlast']
                  rfl

/-- C6: in the map returned by `locate_sections`, a header found at sorted
occurrence position `i` (its last occurrence) maps to the body range
starting right after its line and ending at the next detected occurrence's
line index — or at the number of lines for the final occurrence. -/
theorem locate_sections_ranges (lines : List Str) (i : Nat) (h : Str)
    (p : Nat)
    (hget : (headerOccs lines).get? i = some (h, p))
    (hlast : h ∉ (((headerOccs lines).drop (i + 1)).map Prod.fst)) :
    lookupKey (locate_sections lines) h =
      some (p + 1, nextEnd (headerOccs lines) i lines.length) := by
  unfold locate_sections
  exact buildSections_last _ _ _ _ _ hget hlast _

/-- Witness for C6 on a concrete document: the `skills` header at line 0
gets the range ending exactly where the `education` header (line 2)
begins. -/
theorem locate_sections_ranges_witness :
    lookupKey (locate_sections (["skills", "python", "education",
      "xyz"].map String.data)) ("skills".data) = some (1, 2) := by
  have h := locate_sections_ranges (["skills", "python", "education",
    "xyz"].map String.data) 0 ("skills".data) 0 (by decide) (by decide)
  exact h.trans (by decide)

/-- Witness for C9 at concrete inputs. -/
theorem read_dispatch_errors_witness :
    (∃ m, read_text_dispatch ".xyz".data true true = Except.error m) ∧
    (∃ m, read_text_dispatch ".doc".data true true = Except.error m) ∧
    read_text_dispatch ".txt".data false false = Except.ok () :=
  ⟨(read_dispatch_errors ".xyz".data true true).1 (by decide) (by decide)
      (by decide) (by decide) (by decide),
   (read_dispatch_errors ".doc".data true true).2.1 rfl,
   (read_dispatch_errors ".txt".data false false).2.2 (Or.inl rfl)⟩

/-! ## Normalization: generic helpers -/

/-- A single-character replacement never outputs the replaced character
(when it differs from the replacement). -/
theorem mapIf_not_target (a b : Char) (hab : a ≠ b) (s : Str) :
    a ∉ s.map (fun x => if x = a then b else x) := by
  intro h
  rcases List.mem_map.mp h with ⟨x, _, hx⟩
  by_cases hxa : x = a
  · rw [if_pos hxa] at hx; exact hab hx.symm
  · rw [if_neg hxa] at hx; exact hxa hx

/-- A single-character replacement introduces no character other than its
replacement. -/
theorem mapIf_not_mem (a b c : Char) (s : Str) (h : c ∉ s) (hb : c ≠ b) :
    c ∉ s.map (fun x => if x = a then b else x) := by
  intro hm
  rcases List.mem_map.mp hm with ⟨x, hxs, hx⟩
  by_cases hxa : x = a
  · rw [if_pos hxa] at hx; exact hb hx.symm
  · rw [if_neg hxa] at hx; exact h (hx ▸ hxs)

/-- A single-character replacement is the identity when the replaced
character does not occur. -/
theorem mapIf_eq_self (a b : Char) (s : Str) (h : a ∉ s) :
    s.map (fun x => if x = a then b else x) = s := by
  induction s with
  | nil => rfl
  | cons x xs ih =>
      rw [List.map_cons,
        if_neg (fun hx => h (by rw [← hx]; exact List.mem_cons_self _ _)),
        ih (fun hm => h (List.mem_cons_of_mem _ hm))]

/-- The head of a `dropWhile` result fails the predicate. -/
theorem head_dropWhile_not (p : Char → Bool) :
    ∀ (l : Str) (c : Char), (l.dropWhile p).head? = some c → p c = false := by
  intro l
  induction l with
  | nil => intro c h; simp [List.dropWhile] at h
  | cons x xs ih =>
      intro c h
      rw [List.dropWhile_cons] at h
      by_cases hx : p x = true
      · rw [if_pos hx] at h; exact ih c h
      · rw [if_neg hx] at h
        have : x = c := by simpa using h
        subst this
        simpa using hx

/-- Elements of a `takeWhile` result satisfy the predicate. -/
theorem mem_takeWhile_pred (p : Char → Bool) :
    ∀ (l : Str) (c : Char), c ∈ l.takeWhile p → p c = true := by
  intro l
  induction l with
  | nil => intro c h; simp [List.takeWhile] at h
  | cons x xs ih =>
      intro c h
      rw [List.takeWhile_cons] at h
      by_cases hx : p x = true
      · rw [if_pos hx] at h
        rcases List.mem_cons.mp h with rfl | h
        · exact hx
        · exact ih c h
      · rw [if_neg hx] at h; simp at h

/-- The function `dropWhile` is idempotent. -/
theorem dropWhile_idem (p : Char → Bool) (l : Str) :
    (l.dropWhile p).dropWhile p = l.dropWhile p := by
  cases hd : l.dropWhile p with
  | nil => rfl
  | cons c t =>
      have hc : p c = false := head_dropWhile_not p l c (by rw [hd]; rfl)
      rw [List.dropWhile_cons, hc]
      simp

/-! ## Normalization: the pair and triple checkers -/

/-- The check `okPair` holds whenever the first character is neither space nor
newline. -/
theorem okPair_of_ne (c d : Char) (h1 : c ≠ ' ') (h2 : c ≠ '\n') :
    okPair c d = true := by
  simp [okPair, h1, h2]

/-- Unfolding `headOk` on a cons. -/
theorem headOk_cons (c d : Char) (l : Str) : headOk c (d :: l) = okPair c d :=
  rfl

/-- The check `headOk` only looks at the head. -/
theorem headOk_congr (c : Char) (t t' : Str) (h : t.head? = t'.head?) :
    headOk c t = headOk c t' := by
  cases t <;> cases t' <;> simp_all [headOk]

/-- Unfolding `noSpNL` on a cons. -/
theorem noSpNL_cons (c : Char) (l : Str) :
    noSpNL (c :: l) = (headOk c l && noSpNL l) := rfl

/-- The tail of a pair-clean string is pair-clean. -/
theorem noSpNL_tail {c : Char} {l : Str} (h : noSpNL (c :: l) = true) :
    noSpNL l = true := by
  rw [noSpNL_cons, Bool.and_eq_true] at h
  exact h.2

/-- Pair-cleanliness passes to the right part of an append. -/
theorem noSpNL_append_right :
    ∀ (a b : Str), noSpNL (a ++ b) = true → noSpNL b = true := by
  intro a
  induction a with
  | nil => intro b h; exact h
  | cons c a' ih => intro b h; exact ih b (noSpNL_tail h)

/-- Pair-cleanliness passes to the left part of an append. -/
theorem noSpNL_append_left :
    ∀ (a b : Str), noSpNL (a ++ b) = true → noSpNL a = true := by
  intro a
  induction a with
  | nil => intro b _; rfl
  | cons c a' ih =>
      intro b h
      rw [List.cons_append, noSpNL_cons, Bool.and_eq_true] at h
      rw [noSpNL_cons, Bool.and_eq_true]
      refine ⟨?_, ih b h.2⟩
      cases a' with
      | nil => rfl
      | cons d a'' => exact h.1

/-- Unfolding `noTriple` on a cons. -/
theorem noTriple_cons (c : Char) (l : Str) :
    noTriple (c :: l) = (!(c = '\n' && startsNN l) && noTriple l) := rfl

/-- The tail of a triple-clean string is triple-clean. -/
theorem noTriple_tail {c : Char} {l : Str} (h : noTriple (c :: l) = true) :
    noTriple l = true := by
  rw [noTriple_cons, Bool.and_eq_true] at h
  exact h.2

/-- The check `startsNN` is false when the string does not start with a newline. -/
theorem startsNN_false_of_head (t : Str) (h : t.head? ≠ some '\n') :
    startsNN t = false := by
  cases t with
  | nil => rfl
  | cons d t' =>
      have hd : ¬d = '\n' := fun he => h (by rw [he]; rfl)
      cases t' with
      | nil => rfl
      | cons e t'' => simp [startsNN, hd]

/-- The check `startsNN` is false when the second character is not a newline. -/
theorem startsNN_of_tailhead (c : Char) (t : Str) (h : t.head? ≠ some '\n') :
    startsNN (c :: t) = false := by
  cases t with
  | nil => rfl
  | cons d t' =>
      have hd : ¬d = '\n' := fun he => h (by rw [he]; rfl)
      simp [startsNN, hd]

/-- Triple-cleanliness passes to the right part of an append. -/
theorem noTriple_append_right :
    ∀ (a b : Str), noTriple (a ++ b) = true → noTriple b = true := by
  intro a
  induction a with
  | nil => intro b h; exact h
  | cons c a' ih => intro b h; exact ih b (noTriple_tail h)

/-- Triple-cleanliness passes to the left part of an append. -/
theorem noTriple_append_left :
    ∀ (a b : Str), noTriple (a ++ b) = true → noTriple a = true := by
  intro a
  induction a with
  | nil => intro b _; rfl
  | cons c a' ih =>
      intro b h
      rw [List.cons_append, noTriple_cons, Bool.and_eq_true] at h
      rw [noTriple_cons, Bool.and_eq_true]
      refine ⟨?_, ih b h.2⟩
      by_cases hs : startsNN a' = true
      · have hs' : startsNN (a' ++ b) = true := by
          cases a' with
          | nil => simp [startsNN] at hs
          | cons x a'' =>
              cases a'' with
              | nil => simp [startsNN] at hs
              | cons y a''' => simpa [startsNN] using hs
        rw [hs'] at h
        exact hs ▸ h.1
      · rw [Bool.not_eq_true] at hs
        rw [hs]
        simp

/-- Prepending spaces to a pair-clean string whose head is not a newline
keeps it pair-clean. -/
theorem noSpNL_spaces_prepend :
    ∀ (u t : Str), (∀ c ∈ u, c = ' ') → noSpNL t = true →
      t.head? ≠ some '\n' → noSpNL (u ++ t) = true := by
  intro u
  induction u with
  | nil => intro t _ hno _; exact hno
  | cons c u' ih =>
      intro t hsp hno hh
      have hc : c = ' ' := hsp c (List.mem_cons_self _ _)
      rw [List.cons_append, noSpNL_cons, Bool.and_eq_true]
      refine ⟨?_, ih t (fun d hd => hsp d (List.mem_cons_of_mem _ hd)) hno hh⟩
      subst hc
      cases u' with
      | nil =>
          cases t with
          | nil => rfl
          | cons d t' =>
              have hd : ¬d = '\n' := fun he => hh (by rw [he]; rfl)
              rw [List.nil_append, headOk_cons]
              simp [okPair, hd]
      | cons d u'' =>
          have hd : d = ' ' :=
            hsp d (List.mem_cons_of_mem _ (List.mem_cons_self _ _))
          subst hd
          rw [List.cons_append, headOk_cons]
          decide

/-- Prepending a newline to a pair-clean string whose head is not a space
keeps it pair-clean. -/
theorem noSpNL_nl_prepend (t : Str) (hno : noSpNL t = true)
    (hh : t.head? ≠ some ' ') : noSpNL ('\n' :: t) = true := by
  rw [noSpNL_cons, Bool.and_eq_true]
  refine ⟨?_, hno⟩
  cases t with
  | nil => rfl
  | cons d t' =>
      have hd : ¬d = ' ' := fun he => hh (by rw [he]; rfl)
      rw [headOk_cons]
      simp [okPair, hd]

/-- In a pair-clean string starting with a space, the spaces run is not
followed by a newline. -/
theorem noSpNL_space_head :
    ∀ (l : Str), noSpNL (' ' :: l) = true →
      (l.dropWhile (· = ' ')).head? ≠ some '\n' := by
  intro l
  induction l with
  | nil => intro _ hc; simp [List.dropWhile] at hc
  | cons d t ih =>
      intro h hc
      by_cases hd : d = ' '
      · subst hd
        rw [List.dropWhile_cons] at hc
        simp only [decide_True, if_true] at hc
        exact ih (noSpNL_tail h) hc
      · rw [List.dropWhile_cons, if_neg (by simpa using hd)] at hc
        have hdn : d = '\n' := by simpa using hc
        subst hdn
        rw [noSpNL_cons, Bool.and_eq_true, headOk_cons] at h
        exact absurd h.1 (by decide)

/-- In a pair-clean string starting with a newline, the newline run is not
followed by a space. -/
theorem noSpNL_dropNL_head :
    ∀ (l : Str), noSpNL ('\n' :: l) = true →
      (l.dropWhile (· = '\n')).head? ≠ some ' ' := by
  intro l
  induction l with
  | nil => intro _ hc; simp [List.dropWhile] at hc
  | cons d t ih =>
      intro h hc
      by_cases hd : d = '\n'
      · subst hd
        rw [List.dropWhile_cons] at hc
        simp only [decide_True, if_true] at hc
        exact ih (noSpNL_tail h) hc
      · rw [List.dropWhile_cons, if_neg (by simpa using hd)] at hc
        have hds : d = ' ' := by simpa using hc
        subst hds
        rw [noSpNL_cons, Bool.and_eq_true, headOk_cons] at h
        exact absurd h.1 (by decide)

/-! ## Normalization: trimNL -/

/-- The function `trimNL` only removes characters. -/
theorem trimNL_mem : ∀ (s : Str), ∀ c ∈ trimNL s, c ∈ s := by
  intro s
  induction s using trimNL.induct with
  | case1 => intro c h; rw [trimNL] at h; exact h
  | case2 rest ih =>
      intro c h
      rw [trimNL] at h
      rcases List.mem_cons.mp h with rfl | h
      · exact List.mem_cons_self _ _
      · exact List.mem_cons_of_mem _
          ((List.dropWhile_suffix _).sublist.mem (ih c h))
  | case3 rest hif ih =>
      intro c h
      rw [trimNL, if_pos hif] at h
      exact List.mem_cons_of_mem _
        ((List.dropWhile_suffix _).sublist.mem (ih c h))
  | case4 rest hif ih =>
      intro c h
      rw [trimNL, if_neg hif] at h
      rcases List.mem_cons.mp h with rfl | h
      · exact List.mem_cons_self _ _
      · rcases List.mem_append.mp h with h | h
        · exact List.mem_cons_of_mem _ ((List.takeWhile_sublist _).mem h)
        · exact List.mem_cons_of_mem _
            ((List.dropWhile_suffix _).sublist.mem (ih c h))
  | case5 c rest h1 h2 ih =>
      intro d h
      rw [trimNL.eq_4 c rest h1 h2] at h
      rcases List.mem_cons.mp h with rfl | h
      · exact List.mem_cons_self _ _
      · exact List.mem_cons_of_mem _ (ih d h)

/-- The head of `trimNL s` is the head of `s`, except that a leading space
run absorbed into a newline leaves a newline head. -/
theorem trimNL_head :
    ∀ (s : Str), (trimNL s).head? = s.head? ∨
      (s.head? = some ' ' ∧ (trimNL s).head? = some '\n') := by
  intro s
  induction s using trimNL.induct with
  | case1 => left; rw [trimNL]
  | case2 rest ih => left; rw [trimNL]; rfl
  | case3 rest hif ih =>
      right
      refine ⟨rfl, ?_⟩
      rw [trimNL, if_pos hif]
      rcases ih with h | ⟨h1, _⟩
      · rw [h, hif]
      · rw [hif] at h1
        exact absurd h1 (by decide)
  | case4 rest hif ih => left; rw [trimNL, if_neg hif]; rfl
  | case5 c rest h1 h2 ih => left; rw [trimNL.eq_4 c rest h1 h2]; rfl

/-- The output of `trimNL` has no space adjacent to a newline. -/
theorem noSpNL_trimNL : ∀ (s : Str), noSpNL (trimNL s) = true := by
  intro s
  induction s using trimNL.induct with
  | case1 => rw [trimNL]; rfl
  | case2 rest ih =>
      rw [trimNL]
      have hr : (trimNL (rest.dropWhile (· = ' '))).head? ≠ some ' ' := by
        rcases trimNL_head (rest.dropWhile (· = ' ')) with h | ⟨h1, h2⟩
        · rw [h]
          intro hc
          have := head_dropWhile_not _ rest ' ' hc
          simp at this
        · have := head_dropWhile_not _ rest ' ' h1
          simp at this
      exact noSpNL_nl_prepend _ ih hr
  | case3 rest hif ih =>
      rw [trimNL, if_pos hif]
      exact ih
  | case4 rest hif ih =>
      rw [trimNL, if_neg hif, ← List.cons_append]
      have hu : ∀ c ∈ (' ' :: rest.takeWhile (· = ' ')), c = ' ' := by
        intro c hc
        rcases List.mem_cons.mp hc with rfl | hc
        · rfl
        · simpa using mem_takeWhile_pred _ rest c hc
      have ht : (trimNL (rest.dropWhile (· = ' '))).head? ≠ some '\n' := by
        rcases trimNL_head (rest.dropWhile (· = ' ')) with h | ⟨h1, _⟩
        · rw [h]; exact hif
        · have := head_dropWhile_not _ rest ' ' h1
          simp at this
      exact noSpNL_spaces_prepend _ _ hu ih ht
  | case5 c rest h1 h2 ih =>
      rw [trimNL.eq_4 c rest h1 h2, noSpNL_cons, Bool.and_eq_true]
      refine ⟨?_, ih⟩
      cases ht : trimNL rest with
      | nil => rfl
      | cons d t' =>
          rw [headOk_cons]
          exact okPair_of_ne c d (fun he => h2 he) (fun he => h1 he)

/-- The function `trimNL` is the identity on pair-clean strings. -/
theorem trimNL_eq_self : ∀ (s : Str), noSpNL s = true → trimNL s = s := by
  intro s
  induction s using trimNL.induct with
  | case1 => intro _; rw [trimNL]
  | case2 rest ih =>
      intro h
      have hd : rest.dropWhile (· = ' ') = rest := by
        cases rest with
        | nil => rfl
        | cons d t =>
            rw [noSpNL_cons, Bool.and_eq_true, headOk_cons] at h
            have hds : ¬d = ' ' := by
              intro he
              subst he
              exact absurd h.1 (by decide)
            rw [List.dropWhile_cons, if_neg (by simpa using hds)]
      rw [hd] at ih
      rw [trimNL, hd, ih (noSpNL_tail h)]
  | case3 rest hif ih =>
      intro h
      exact absurd hif (noSpNL_space_head rest h)
  | case4 rest hif ih =>
      intro h
      have hr : noSpNL (rest.dropWhile (· = ' ')) = true := by
        have h2 := noSpNL_tail h
        rw [← List.takeWhile_append_dropWhile (p := (· = ' ')) (l := rest)] at h2
        exact noSpNL_append_right _ _ h2
      rw [trimNL, if_neg hif, ih hr, List.takeWhile_append_dropWhile]
  | case5 c rest h1 h2 ih =>
      intro h
      rw [trimNL.eq_4 c rest h1 h2, ih (noSpNL_tail h)]

/-! ## Normalization: collapseNL -/

/-- The function `collapseNL` never changes the head character. -/
theorem collapseNL_head : ∀ (s : Str), (collapseNL s).head? = s.head? := by
  intro s
  induction s using collapseNL.induct with
  | case1 => rw [collapseNL]
  | case2 rest ih =>
      rw [collapseNL]
      by_cases hh : rest.head? = some '\n'
      · rw [if_pos hh]; rfl
      · rw [if_neg hh]; rfl
  | case3 c rest h1 ih => rw [collapseNL.eq_3 c rest h1]; rfl

/-- The function `collapseNL` only removes characters. -/
theorem collapseNL_mem : ∀ (s : Str), ∀ c ∈ collapseNL s, c ∈ s := by
  intro s
  induction s using collapseNL.induct with
  | case1 => intro c h; rw [collapseNL] at h; exact h
  | case2 rest ih =>
      intro c h
      rw [collapseNL] at h
      rcases List.mem_append.mp h with h | h
      · have : c = '\n' := by
          by_cases hh : rest.head? = some '\n' <;>
            simp [hh] at h <;> simp [h]
        subst this
        exact List.mem_cons_self _ _
      · exact List.mem_cons_of_mem _
          ((List.dropWhile_suffix _).sublist.mem (ih c h))
  | case3 c rest h1 ih =>
      intro d h
      rw [collapseNL.eq_3 c rest h1] at h
      rcases List.mem_cons.mp h with rfl | h
      · exact List.mem_cons_self _ _
      · exact List.mem_cons_of_mem _ (ih d h)

/-- The output of `collapseNL` has no run of three newlines. -/
theorem noTriple_collapseNL : ∀ (s : Str), noTriple (collapseNL s) = true := by
  intro s
  induction s using collapseNL.induct with
  | case1 => rw [collapseNL]; rfl
  | case2 rest ih =>
      rw [collapseNL]
      have hr : (collapseNL (rest.dropWhile (· = '\n'))).head? ≠ some '\n' := by
        rw [collapseNL_head]
        intro hc
        have := head_dropWhile_not _ rest '\n' hc
        simp at this
      by_cases hh : rest.head? = some '\n'
      · rw [if_pos hh]
        show noTriple ('\n' :: '\n' :: collapseNL (rest.dropWhile (· = '\n'))) =
          true
        rw [noTriple_cons, noTriple_cons, Bool.and_eq_true, Bool.and_eq_true]
        refine ⟨?_, ?_, ih⟩
        · rw [startsNN_of_tailhead _ _ hr]; rfl
        · rw [startsNN_false_of_head _ hr]; rfl
      · rw [if_neg hh]
        show noTriple ('\n' :: collapseNL (rest.dropWhile (· = '\n'))) = true
        rw [noTriple_cons, Bool.and_eq_true]
        refine ⟨?_, ih⟩
        rw [startsNN_false_of_head _ hr]; rfl
  | case3 c rest h1 ih =>
      rw [collapseNL.eq_3 c rest h1, noTriple_cons, Bool.and_eq_true]
      refine ⟨?_, ih⟩
      have : ¬c = '\n' := fun he => h1 he
      simp [this]

/-- The function `collapseNL` is the identity on triple-clean strings. -/
theorem collapseNL_eq_self :
    ∀ (s : Str), noTriple s = true → collapseNL s = s := by
  intro s
  induction s using collapseNL.induct with
  | case1 => intro _; rw [collapseNL]
  | case2 rest ih =>
      intro h
      rw [noTriple_cons, Bool.and_eq_true] at h
      have hs : startsNN rest = false := by
        rcases h with ⟨h1, _⟩
        by_cases hs : startsNN rest = true
        · rw [hs] at h1; simp at h1
        · exact Bool.not_eq_true _ |>.mp hs
      cases rest with
      | nil => simp [collapseNL]
      | cons d t =>
          by_cases hd : d = '\n'
          · subst hd
            have ht : t.head? ≠ some '\n' := by
              intro hc
              cases t with
              | nil => simp at hc
              | cons e t' =>
                  have he : e = '\n' := by simpa using hc
                  subst he
                  simp [startsNN] at hs
            have hdt : t.dropWhile (· = '\n') = t := by
              cases t with
              | nil => rfl
              | cons e t' =>
                  have he : ¬e = '\n' := fun hee => ht (by rw [hee]; rfl)
                  rw [List.dropWhile_cons, if_neg (by simpa using he)]
            have hrec : ('\n' :: t).dropWhile (· = '\n') = t := by
              rw [List.dropWhile_cons]
              simp only [decide_True, if_true]
              exact hdt
            rw [collapseNL, if_pos (by rfl), hrec]
            rw [hrec] at ih
            rw [ih (noTriple_tail h.2)]
            rfl
          · have hdt : (d :: t).dropWhile (· = '\n') = d :: t := by
              rw [List.dropWhile_cons, if_neg (by simpa using hd)]
            rw [collapseNL, if_neg (fun hc => hd (by simpa using hc)), hdt]
            rw [hdt] at ih
            rw [ih h.2]
            rfl
  | case3 c rest h1 ih =>
      intro h
      rw [collapseNL.eq_3 c rest h1, ih (noTriple_tail h)]

/-- The function `collapseNL` keeps strings pair-clean. -/
theorem noSpNL_collapseNL :
    ∀ (s : Str), noSpNL s = true → noSpNL (collapseNL s) = true := by
  intro s
  induction s using collapseNL.induct with
  | case1 => intro _; rw [collapseNL]; rfl
  | case2 rest ih =>
      intro h
      have hh2 : (collapseNL (rest.dropWhile (· = '\n'))).head? ≠ some ' ' := by
        rw [collapseNL_head]
        exact noSpNL_dropNL_head rest h
      have hr : noSpNL (rest.dropWhile (· = '\n')) = true := by
        have h2 := noSpNL_tail h
        rw [← List.takeWhile_append_dropWhile (p := (· = '\n')) (l := rest)] at h2
        exact noSpNL_append_right _ _ h2
      rw [collapseNL]
      by_cases hh : rest.head? = some '\n'
      · rw [if_pos hh]
        show noSpNL ('\n' :: '\n' :: collapseNL (rest.dropWhile (· = '\n'))) =
          true
        refine noSpNL_nl_prepend _ ?_ (by simp)
        exact noSpNL_nl_prepend _ (ih hr) hh2
      · rw [if_neg hh]
        show noSpNL ('\n' :: collapseNL (rest.dropWhile (· = '\n'))) = true
        exact noSpNL_nl_prepend _ (ih hr) hh2
  | case3 c rest h1 ih =>
      intro h
      rw [collapseNL.eq_3 c rest h1, noSpNL_cons, Bool.and_eq_true]
      rw [noSpNL_cons, Bool.and_eq_true] at h
      refine ⟨?_, ih h.2⟩
      rw [headOk_congr c _ rest (collapseNL_head rest)]
      exact h.1

/-! ## Normalization: strip -/

/-- The function `lstripWs` removes a prefix. -/
theorem exists_append_lstripWs (s : Str) : ∃ t, s = t ++ lstripWs s := by
  obtain ⟨t, ht⟩ := List.dropWhile_suffix (l := s) isPyWs
  exact ⟨t, ht.symm⟩

/-- The function `rstripWs` removes a suffix. -/
theorem exists_rstripWs_append (s : Str) : ∃ w, s = rstripWs s ++ w := by
  obtain ⟨t, ht⟩ := List.dropWhile_suffix (l := s.reverse) isPyWs
  refine ⟨t.reverse, ?_⟩
  have h2 := congrArg List.reverse ht
  rw [List.reverse_append, List.reverse_reverse] at h2
  unfold rstripWs
  exact h2.symm

/-- The function `pyStrip` keeps a contiguous middle part of the string. -/
theorem pyStrip_decomp (s : Str) : ∃ t w, s = t ++ (pyStrip s ++ w) := by
  obtain ⟨t, ht⟩ := exists_append_lstripWs s
  obtain ⟨w, hw⟩ := exists_rstripWs_append (lstripWs s)
  refine ⟨t, w, ?_⟩
  rw [pyStrip, ← hw]
  exact ht

/-- The function `pyStrip` only removes characters. -/
theorem mem_pyStrip (s : Str) (c : Char) (h : c ∈ pyStrip s) : c ∈ s := by
  obtain ⟨t, w, hw⟩ := pyStrip_decomp s
  rw [hw]
  simp [h]

/-- The function `pyStrip` keeps strings pair-clean. -/
theorem noSpNL_pyStrip (s : Str) (h : noSpNL s = true) :
    noSpNL (pyStrip s) = true := by
  obtain ⟨t, w, hw⟩ := pyStrip_decomp s
  rw [hw] at h
  exact noSpNL_append_left _ _ (noSpNL_append_right _ _ h)

/-- The function `pyStrip` keeps strings triple-clean. -/
theorem noTriple_pyStrip (s : Str) (h : noTriple s = true) :
    noTriple (pyStrip s) = true := by
  obtain ⟨t, w, hw⟩ := pyStrip_decomp s
  rw [hw] at h
  exact noTriple_append_left _ _ (noTriple_append_right _ _ h)

/-- Left-stripping after right-stripping a left-stripped string changes
nothing. -/
theorem lstripWs_rstripWs (s : Str) :
    lstripWs (rstripWs (lstripWs s)) = rstripWs (lstripWs s) := by
  cases h : rstripWs (lstripWs s) with
  | nil => rfl
  | cons c v =>
      obtain ⟨w, hw⟩ := exists_rstripWs_append (lstripWs s)
      rw [h] at hw
      have hc : isPyWs c = false := by
        apply head_dropWhile_not isPyWs s c
        show (lstripWs s).head? = some c
        rw [hw]
        rfl
      show (c :: v).dropWhile isPyWs = c :: v
      rw [List.dropWhile_cons]
      simp [hc]

/-- The function `rstripWs` is idempotent. -/
theorem rstripWs_idem (s : Str) : rstripWs (rstripWs s) = rstripWs s := by
  unfold rstripWs
  rw [List.reverse_reverse, dropWhile_idem]

/-- The function `pyStrip` is idempotent. -/
theorem pyStrip_idem (s : Str) : pyStrip (pyStrip s) = pyStrip s := by
  show rstripWs (lstripWs (rstripWs (lstripWs s))) = rstripWs (lstripWs s)
  rw [lstripWs_rstripWs, rstripWs_idem]

/-! ## Normalization: the claims -/

/-- After the three character replacements there is no carriage return. -/
theorem pre_no_cr (s : Str) : '\r' ∉ mapTAB (mapNBSP (mapCR s)) := by
  unfold mapTAB mapNBSP mapCR
  refine mapIf_not_mem _ _ _ _ ?_ (by decide)
  refine mapIf_not_mem _ _ _ _ ?_ (by decide)
  exact mapIf_not_target _ _ (by decide) _

/-- After the three character replacements there is no non-breaking
space. -/
theorem pre_no_nbsp (s : Str) : '\u00A0' ∉ mapTAB (mapNBSP (mapCR s)) := by
  unfold mapTAB mapNBSP
  refine mapIf_not_mem _ _ _ _ ?_ (by decide)
  exact mapIf_not_target _ _ (by decide) _

/-- After the three character replacements there is no tab. -/
theorem pre_no_tab (s : Str) : '\t' ∉ mapTAB (mapNBSP (mapCR s)) := by
  unfold mapTAB
  exact mapIf_not_target _ _ (by decide) _

/-- A character absent after the replacements is absent from the
normalized output. -/
theorem normalize_not_mem (s : Str) (c : Char)
    (h : c ∉ mapTAB (mapNBSP (mapCR s))) : c ∉ normalize s := by
  intro hm
  exact h (trimNL_mem _ _ (collapseNL_mem _ _ (mem_pyStrip _ _ hm)))

/-- The normalized output is pair-clean. -/
theorem normalize_noSpNL (s : Str) : noSpNL (normalize s) = true :=
  noSpNL_pyStrip _ (noSpNL_collapseNL _ (noSpNL_trimNL _))

/-- The normalized output is triple-clean. -/
theorem normalize_noTriple (s : Str) : noTriple (normalize s) = true :=
  noTriple_pyStrip _ (noTriple_collapseNL _)

/-- The normalized output is already stripped. -/
theorem normalize_pyStrip_fixed (s : Str) :
    pyStrip (normalize s) = normalize s :=
  pyStrip_idem _

/-- C8: for every input string, the normalization output contains no tab,
no carriage return, no non-breaking space, and no run of three or more
consecutive newlines. -/
theorem normalize_invariants (s : Str) :
    '\t' ∉ normalize s ∧ '\r' ∉ normalize s ∧ '\u00A0' ∉ normalize s ∧
    noTriple (normalize s) = true :=
  ⟨normalize_not_mem s '\t' (pre_no_tab s),
   normalize_not_mem s '\r' (pre_no_cr s),
   normalize_not_mem s '\u00A0' (pre_no_nbsp s),
   normalize_noTriple s⟩

/-- C7: the whitespace normalization applied by `read_text_from_file` is
idempotent. -/
theorem normalize_idempotent (s : Str) :
    normalize (normalize s) = normalize s := by
  have e1 : mapCR (normalize s) = normalize s := by
    unfold mapCR
    exact mapIf_eq_self _ _ _ (normalize_not_mem s '\r' (pre_no_cr s))
  have e2 : mapNBSP (normalize s) = normalize s := by
    unfold mapNBSP
    exact mapIf_eq_self _ _ _ (normalize_not_mem s '\u00A0' (pre_no_nbsp s))
  have e3 : mapTAB (normalize s) = normalize s := by
    unfold mapTAB
    exact mapIf_eq_self _ _ _ (normalize_not_mem s '\t' (pre_no_tab s))
  have e4 : trimNL (normalize s) = normalize s :=
    trimNL_eq_self _ (normalize_noSpNL s)
  have e5 : collapseNL (normalize s) = normalize s :=
    collapseNL_eq_self _ (normalize_noTriple s)
  conv_lhs => rw [normalize]
  rw [e1, e2, e3, e4, e5, normalize_pyStrip_fixed]

end ATS
